import Mathlib

/-!
Verification development for the hybrid resume-to-job-description matching
engine of the HR-Agentic-System repository.

The Python sources under `apps/api` are shallowly embedded: pure
computations become Lean functions over `ℚ` (Python floats are modelled as
exact rationals), Python dicts become association lists with
last-write-wins insertion, external retrieval/LLM components (Chroma
vector search, BM25, the Gemini judge, the Presidio PII analyzer) become
oracle parameters, and fallible routes return `Except`.
-/

namespace HRAgentic

/-- Lookup in an association list, mirroring Python `dict.get`. -/
def lookupAL {α : Type} : List (String × α) → String → Option α
  | [], _ => none
  | (k', v) :: rest, k => if k = k' then some v else lookupAL rest k

/-- Insertion into an association list with Python-dict semantics:
an existing key keeps its position and its value is overwritten, a new key
is appended at the end. -/
def insertAL {α : Type} : List (String × α) → String → α → List (String × α)
  | [], k, v => [(k, v)]
  | (k', v') :: rest, k, v =>
      if k' = k then (k', v) :: rest else (k', v') :: insertAL rest k v

/-- Lookup with a default, mirroring Python `dict.get(key, default)`. -/
def lookupD (m : List (String × ℚ)) (k : String) (d : ℚ) : ℚ :=
  (lookupAL m k).getD d

/-- Rounding to three decimal places, as Python `round(x, 3)` on the
rational model of floats. -/
def round3 (q : ℚ) : ℚ := (round (q * 1000) : ℤ) / 1000

/-- Position-based score of the 0-indexed rank `i` within a retrieved list
of length `N`, as computed in `HybridMatcher.find_matches`:
`1.0 - (i / max(len(docs), 1))`. -/
def pscore (N i : ℕ) : ℚ := 1 - (i : ℚ) / ((max N 1 : ℕ) : ℚ)

/-- A LangChain `Document`: page content plus a string metadata map
(the metadata values consulted by this pipeline are strings). -/
structure Doc where
  page_content : String
  metadata : List (String × String)
deriving DecidableEq, Repr

/-- The `HybridScores` pydantic model from `models/hybrid_search.py`. -/
structure HybridScores where
  vector_score : ℚ
  bm25_score : ℚ
  hybrid_score : ℚ
deriving DecidableEq, Repr

/-- The `ResumeScores` pydantic model (reasoning omitted in the hybrid
path, where the object is a placeholder built from the hybrid score). -/
structure ResumeScores where
  technical_skills : ℚ
  experience : ℚ
  overall_match : ℚ
deriving DecidableEq, Repr

/-- The `SearchResult` pydantic model.  The `hybrid_scores` entry that
`HybridMatcher.find_matches` adds to the result metadata is modelled as a
typed optional field next to the inherited string metadata. -/
structure SearchResult where
  content : String
  score : ℚ
  scores : ResumeScores
  search_type : String
  metadata : List (String × String)
  hybrid_scores : Option HybridScores
deriving DecidableEq, Repr

/-- The `CandidateMatchResult` pydantic model exactly as declared in
`models/hybrid_search.py`: it has the fields `candidate_id` and `scores`
and nothing else (in particular no `report` field, see the C1 theorem). -/
structure CandidateMatchResult where
  candidate_id : String
  scores : HybridScores
deriving DecidableEq, Repr

/-! ### Position-score maps (`vector_scores_map` / `bm25_scores_map`)

`HybridMatcher.find_matches` walks a retrieved list and executes
`scores_map[doc.page_content] = 1.0 - (i / max(len(docs), 1))`,
a Python dict assignment: a repeated `page_content` overwrites the score
written for its earlier rank. -/

/-- The dict-building loop: insert position scores for ranks `i, i+1, ...`
of the remaining docs into the accumulator map. -/
def insAll (N : ℕ) : ℕ → List Doc → List (String × ℚ) → List (String × ℚ)
  | _, [], m => m
  | i, d :: ds, m => insAll N (i + 1) ds (insertAL m d.page_content (pscore N i))

/-- The per-component position-score map over a retrieved list, as built
by the loop in `HybridMatcher.find_matches`. -/
def buildScoresMap (docs : List Doc) : List (String × ℚ) :=
  insAll docs.length 0 docs []

/-- Specification-side characterisation: the position score of the LAST
occurrence of content `c` among the docs at ranks `i, i+1, ...`, or `none`
if `c` does not occur. -/
def lastScore? (N : ℕ) : ℕ → List Doc → String → Option ℚ
  | _, [], _ => none
  | i, d :: ds, c =>
      match lastScore? N (i + 1) ds c with
      | some v => some v
      | none => if d.page_content = c then some (pscore N i) else none

/-- Component score of a chunk content within a retrieved pool: the
position score of its last occurrence, falling back to `0.0` when the
content does not appear in the pool. -/
def componentScore (docs : List Doc) (c : String) : ℚ :=
  match lastScore? docs.length 0 docs c with
  | some v => v
  | none => 0

/-! ### The hybrid matcher

External retrieval (Chroma similarity search, BM25, LangChain's ensemble
retriever) is an oracle: a `MatcherState` carries, for each strategy, the
full best-first ranking it would produce for a query; retrieving `k`
results takes the first `k` of that ranking. -/

/-- Oracle state of an indexed `HybridMatcher`. -/
structure MatcherState where
  vector_weight : ℚ
  vectorRank : String → List Doc
  bm25Rank : String → List Doc
  ensembleRank : String → List Doc

/-- The pool the vector retriever returns in the hybrid branch of
`HybridMatcher.find_matches`: the retriever is created with
`search_kwargs={"k": k}` for the requested `k`. -/
def vectorPool (st : MatcherState) (q : String) (k : ℕ) : List Doc :=
  (st.vectorRank q).take k

/-- The pool the BM25 retriever returns in the hybrid branch:
`self.bm25_retriever.k = k` is set to the requested `k`. -/
def bm25Pool (st : MatcherState) (q : String) (k : ℕ) : List Doc :=
  (st.bm25Rank q).take k

/-- The fused list: the ensemble retriever's ranking truncated by
`ensemble_docs = ensemble_docs[:k]`. -/
def ensemblePool (st : MatcherState) (q : String) (k : ℕ) : List Doc :=
  (st.ensembleRank q).take k

/-- Construction of one hybrid `SearchResult` from a fused doc, as in the
result loop of `HybridMatcher.find_matches`: component scores are looked
up by page content with fallback `0.0`, the hybrid score is
`alpha * vector_score + (1 - alpha) * bm25_score`, and all stored scores
are rounded to three decimals. -/
def mkSearchResult (alpha : ℚ) (vmap bmap : List (String × ℚ)) (d : Doc) :
    SearchResult :=
  let v := lookupD vmap d.page_content 0
  let b := lookupD bmap d.page_content 0
  let h := alpha * v + (1 - alpha) * b
  { content := d.page_content
    score := round3 h
    scores := { technical_skills := h, experience := h, overall_match := h }
    search_type := "hybrid"
    metadata := d.metadata
    hybrid_scores := some
      { vector_score := round3 v
        bm25_score := round3 b
        hybrid_score := round3 h } }

/-- The hybrid branch of `HybridMatcher.find_matches` on an indexed
matcher: retrieve `k` docs from each component, build the position-score
maps, and score the first `k` fused docs. -/
def find_matches_hybrid (st : MatcherState) (query : String) (k : ℕ) :
    List SearchResult :=
  let vector_docs := vectorPool st query k
  let bm25_docs := bm25Pool st query k
  let ensemble_docs := ensemblePool st query k
  let vmap := buildScoresMap vector_docs
  let bmap := buildScoresMap bm25_docs
  ensemble_docs.map (mkSearchResult st.vector_weight vmap bmap)

/-! ### The candidate aggregation service (`HybridSearchService.find_matches`)

The service sanitizes the job description (the sanitizer is an oracle
parameter, see the sanitizer section), asks the matcher for `k * 3`
chunks, groups them by the `candidate_id` metadata value, averages the
per-chunk hybrid scores, sorts descending by hybrid score with Python's
stable sort and truncates to `k`. -/

/-- Candidate attribution of a chunk result, as in the grouping loop:
`candidate_id = chunk_result.metadata.get('candidate_id')` followed by a
Python truthiness check (`if candidate_id:`), so an absent key and an
empty string both drop the chunk. -/
def getCandidateId (r : SearchResult) : Option String :=
  match lookupAL r.metadata "candidate_id" with
  | some s => if s = "" then none else some s
  | none => none

/-- Append a chunk to its candidate's group, creating the group at the end
when the candidate is new (Python dict insertion order). -/
def addToGroups (gs : List (String × List SearchResult)) (cid : String)
    (r : SearchResult) : List (String × List SearchResult) :=
  match gs with
  | [] => [(cid, [r])]
  | (c, rs) :: rest =>
      if c = cid then (c, rs ++ [r]) :: rest
      else (c, rs) :: addToGroups rest cid r

/-- The grouping loop of `HybridSearchService.find_matches`: chunks whose
metadata lacks a truthy `candidate_id` are dropped. -/
def groupByCandidate (rs : List SearchResult) :
    List (String × List SearchResult) :=
  rs.foldl
    (fun gs r =>
      match getCandidateId r with
      | some cid => addToGroups gs cid r
      | none => gs)
    []

/-- Python `sum(xs) / len(xs) if xs else 0.0`. -/
def avgQ (l : List ℚ) : ℚ := if l.length = 0 then 0 else l.sum / l.length

/-- Aggregation of one candidate's chunk group: collect the
`hybrid_scores` metadata entries (chunks without one contribute nothing),
average each component, round to three decimals.  The analysis report the
service computes alongside is not a declared field of
`CandidateMatchResult` (see the C1 theorem), so the constructed value
carries only `candidate_id` and `scores`. -/
def aggregateGroup (cid : String) (chunks : List SearchResult) :
    CandidateMatchResult :=
  let hss := chunks.filterMap (fun c => c.hybrid_scores)
  { candidate_id := cid
    scores :=
      { vector_score := round3 (avgQ (hss.map (fun h => h.vector_score)))
        bm25_score := round3 (avgQ (hss.map (fun h => h.bm25_score)))
        hybrid_score := round3 (avgQ (hss.map (fun h => h.hybrid_score))) } }

/-- Descending order on candidate results by stored hybrid score. -/
def scoreGe (a b : CandidateMatchResult) : Prop :=
  b.scores.hybrid_score ≤ a.scores.hybrid_score

/-- Insert a candidate after every already-placed candidate with a
greater-or-equal hybrid score. -/
def insertDesc (x : CandidateMatchResult) :
    List CandidateMatchResult → List CandidateMatchResult
  | [] => [x]
  | y :: ys =>
      if y.scores.hybrid_score < x.scores.hybrid_score then x :: y :: ys
      else y :: insertDesc x ys

/-- Stable descending sort by hybrid score, the extensional behaviour of
Python's stable `list.sort(key=lambda x: x.scores.hybrid_score,
reverse=True)`. -/
def sortDesc (l : List CandidateMatchResult) : List CandidateMatchResult :=
  l.foldl (fun acc x => insertDesc x acc) []

/-- `HybridSearchService.find_matches`: sanitize the query, retrieve
`k * 3` chunks from the hybrid matcher, group by candidate, aggregate,
sort descending by hybrid score, return the top `k`. -/
def service_find_matches (st : MatcherState) (sanitize : String → String)
    (job_description : String) (k : ℕ) : List CandidateMatchResult :=
  let chunk_results := find_matches_hybrid st (sanitize job_description) (k * 3)
  let groups := groupByCandidate chunk_results
  let candidate_results := groups.map (fun g => aggregateGroup g.1 g.2)
  (sortDesc candidate_results).take k

/-! ### Entry points and the never-indexed state

`load_existing_index` succeeds exactly when a persisted index exists; a
`World` records what it would load.  The module-level convenience
`find_matches` returns `[]` when loading fails, while calling
`HybridSearchService.find_matches` on a freshly constructed service makes
`HybridMatcher.find_matches` raise `ValueError` ("Documents must be
indexed before searching") when loading fails. -/

/-- The persisted on-disk state an entry point would load: `none` models a
never-indexed process (no `./chroma_db` directory). -/
structure World where
  persisted : Option MatcherState

/-- Typed search failures surfaced by the matcher. -/
inductive SearchError where
  | notIndexed
deriving DecidableEq, Repr

/-- The module-level convenience `find_matches` of
`hybrid_search_service.py`: construct a fresh service, try
`load_existing_index`, and return the empty list when no index loads. -/
def module_find_matches (w : World) (sanitize : String → String)
    (q : String) (k : ℕ) :
    Except SearchError (List CandidateMatchResult) :=
  match w.persisted with
  | none => Except.ok []
  | some st => Except.ok (service_find_matches st sanitize q k)

/-- Calling `HybridSearchService.find_matches` directly on a fresh
service: the matcher has no ensemble retriever, tries
`load_existing_index`, and raises `NotIndexed` (a `ValueError`) when that
fails. -/
def service_direct_find_matches (w : World) (sanitize : String → String)
    (q : String) (k : ℕ) :
    Except SearchError (List CandidateMatchResult) :=
  match w.persisted with
  | none => Except.error SearchError.notIndexed
  | some st => Except.ok (service_find_matches st sanitize q k)

/-! ### The qualitative evaluator (`resume_evaluator.py`)

The Gemini call and the JSON decoding are external; an operation's input
is modelled as the outcome of that call: the call raised, the response
text failed to parse as JSON, or a parsed JSON object (with every field
optional, mirroring `result.get(key, default)`). -/

/-- Outcome of one judge-model call as seen by the evaluator code. -/
inductive ModelOutcome (α : Type) where
  | callFailure
  | parseFailure
  | ok (value : α)
deriving DecidableEq, Repr

/-- The per-axis reasoning object of a parsed scores response. -/
structure RawReasoning where
  technical_skills : Option String
  experience : Option String
  overall_match : Option String
deriving DecidableEq, Repr

/-- A parsed JSON response of `evaluate_resume`. -/
structure RawScores where
  technical_skills : Option ℚ
  experience : Option ℚ
  overall_match : Option ℚ
  reasoning : Option RawReasoning
deriving DecidableEq, Repr

/-- The dictionary `evaluate_resume` returns. -/
structure ScoresDict where
  technical_skills : ℚ
  experience : ℚ
  overall_match : ℚ
  reasoning_technical_skills : String
  reasoning_experience : String
  reasoning_overall_match : String
deriving DecidableEq, Repr

/-- `ResumeEvaluatorAgent._get_fallback_scores`. -/
def get_fallback_scores : ScoresDict :=
  { technical_skills := 1 / 2
    experience := 1 / 2
    overall_match := 1 / 2
    reasoning_technical_skills := "AI evaluation failed. Using default score."
    reasoning_experience := "AI evaluation failed. Using default score."
    reasoning_overall_match := "AI evaluation failed. Using default score." }

/-- Python `max(0.0, min(1.0, x))`. -/
def clamp01 (x : ℚ) : ℚ := max 0 (min 1 x)

/-- `ResumeEvaluatorAgent.evaluate_resume`: every call or parse failure is
caught and answered with the fallback scores; a parsed response has each
axis defaulted to `0.5`, clamped to `[0, 1]` and rounded to three
decimals, and each reasoning string defaulted. -/
def evaluate_resume (outcome : ModelOutcome RawScores) : ScoresDict :=
  match outcome with
  | ModelOutcome.callFailure => get_fallback_scores
  | ModelOutcome.parseFailure => get_fallback_scores
  | ModelOutcome.ok r =>
      let rd := r.reasoning.getD { technical_skills := none, experience := none, overall_match := none }
      { technical_skills := round3 (clamp01 (r.technical_skills.getD (1 / 2)))
        experience := round3 (clamp01 (r.experience.getD (1 / 2)))
        overall_match := round3 (clamp01 (r.overall_match.getD (1 / 2)))
        reasoning_technical_skills := rd.technical_skills.getD "No explanation provided"
        reasoning_experience := rd.experience.getD "No explanation provided"
        reasoning_overall_match := rd.overall_match.getD "No explanation provided" }

/-- A parsed JSON response of `generate_analysis_report`; a list field is
`none` when the key is absent or its value is not a list (both default to
`[]` in the source). -/
structure RawReport where
  fit_category : Option String
  overall_score : Option ℤ
  missing_skills : Option (List String)
  explanation : Option String
  strengths : Option (List String)
  weaknesses : Option (List String)
deriving DecidableEq, Repr

/-- The dictionary `generate_analysis_report` returns (the
`CandidateAnalysisReport` shape of the spec). -/
structure ReportDict where
  fit_category : String
  overall_score : ℤ
  missing_skills : List String
  explanation : String
  strengths : List String
  weaknesses : List String
deriving DecidableEq, Repr

/-- `ResumeEvaluatorAgent._get_fallback_report`. -/
def get_fallback_report : ReportDict :=
  { fit_category := "Fair"
    overall_score := 50
    missing_skills := []
    explanation := "AI analysis failed. Unable to generate detailed report."
    strengths := []
    weaknesses := [] }

/-- `ResumeEvaluatorAgent.generate_analysis_report`: every call or parse
failure is caught and answered with the fallback report; a parsed
response is validated field by field (category restricted to the four
buckets, score clamped to `[0, 100]`, non-list lists replaced by `[]`). -/
def generate_analysis_report (outcome : ModelOutcome RawReport) : ReportDict :=
  match outcome with
  | ModelOutcome.callFailure => get_fallback_report
  | ModelOutcome.parseFailure => get_fallback_report
  | ModelOutcome.ok r =>
      let fc0 := r.fit_category.getD "Fair"
      { fit_category :=
          if fc0 = "Excellent" ∨ fc0 = "Good" ∨ fc0 = "Fair" ∨ fc0 = "Poor"
          then fc0 else "Fair"
        overall_score := max 0 (min 100 (r.overall_score.getD 50))
        missing_skills := r.missing_skills.getD []
        explanation := r.explanation.getD "No explanation provided."
        strengths := r.strengths.getD []
        weaknesses := r.weaknesses.getD [] }

/-! ### The deletion route (`routes/hybrid_search.py`, `delete_resume`)

The route loads the persisted collection, gathers the ids of chunks whose
metadata `candidate_id` equals the requested one, answers 404 when none
match (before any mutation), and otherwise deletes them and rebuilds the
BM25 and ensemble retrievers from the remaining chunks. -/

/-- One chunk as stored in the Chroma collection. -/
structure StoredChunk where
  id : String
  text : String
  metadata : List (String × String)
deriving DecidableEq, Repr

/-- Index state visible to the deletion route: the persisted chunk set and
the two in-memory retrievers rebuilt from it. -/
structure IndexState where
  collection : List StoredChunk
  bm25_docs : Option (List StoredChunk)
  ensemble_present : Bool
deriving DecidableEq, Repr

/-- Route failures. -/
inductive DeleteError where
  | notFound
deriving DecidableEq, Repr

/-- The match test of the id-gathering loop:
`if metadata and metadata.get('candidate_id') == candidate_id`. -/
def chunkMatches (c : StoredChunk) (cid : String) : Bool :=
  !c.metadata.isEmpty && (lookupAL c.metadata "candidate_id" == some cid)

/-- The `delete_resume` route body on a loaded index: 404 on an empty
collection or when no chunk matches (the state is untouched on these
paths); otherwise delete the matching ids and rebuild both retrievers
from the remaining chunks (resetting them when nothing remains). -/
def delete_resume (st : IndexState) (cid : String) :
    Except DeleteError ℕ × IndexState :=
  if st.collection.isEmpty then (Except.error DeleteError.notFound, st)
  else
    let ids_to_delete :=
      (st.collection.filter (fun c => chunkMatches c cid)).map (fun c => c.id)
    if ids_to_delete.isEmpty then (Except.error DeleteError.notFound, st)
    else
      let remaining :=
        st.collection.filter (fun c => !(ids_to_delete.contains c.id))
      if remaining.isEmpty then
        (Except.ok ids_to_delete.length,
          { collection := remaining, bm25_docs := none, ensemble_present := false })
      else
        (Except.ok ids_to_delete.length,
          { collection := remaining, bm25_docs := some remaining,
            ensemble_present := true })

/-! ### Module-level names (`models/hybrid_search.py` vs its importers)

`hybrid_search_service.py` line 14 imports `CandidateAnalysisReport` from
`models.hybrid_search`; the lists below transcribe what that module
actually defines and what the service imports. -/

/-- The classes `models/hybrid_search.py` defines. -/
def models_hybrid_search_classes : List String :=
  ["CandidateDocument", "ScoreReasoning", "ResumeScores", "SearchResult",
   "HybridScores", "CandidateMatchResult"]

/-- The field names declared by the `CandidateMatchResult` pydantic
model. -/
def candidateMatchResult_fields : List String :=
  ["candidate_id", "scores"]

/-- The names `hybrid_search_service.py` imports from
`models.hybrid_search`. -/
def service_imported_model_names : List String :=
  ["CandidateDocument", "SearchResult", "CandidateMatchResult",
   "ResumeScores", "HybridScores", "CandidateAnalysisReport"]

/-! ### The sanitizer's post-processing stage
(`TextSanitizer._post_process_text`)

The full `clean_text` first runs the external Presidio analyzer/anonymizer
(an ML NER engine outside this repository, left as an oracle) and then a
pure post-processing pass: collapse every whitespace run to one space,
replace every character outside an allow-list by a space, collapse again,
strip.  The whitespace class (Python `\s`) and the allow-list (Python `\w`
is Unicode-aware plus a fixed punctuation set) are parameters `ws` and
`allowed`; the only facts the proofs use are that `' '` is whitespace and
allowed, which hold for the source's regexes. -/

/-- One pass of `re.sub(r'\s+', ' ', text)`: the flag records whether the
previous character belonged to a whitespace run. -/
def collapseAux (ws : Char → Bool) : Bool → List Char → List Char
  | _, [] => []
  | prev, c :: cs =>
      if ws c then
        if prev then collapseAux ws true cs
        else ' ' :: collapseAux ws true cs
      else c :: collapseAux ws false cs

/-- `re.sub(r'\s+', ' ', text)`: every maximal whitespace run becomes one
space. -/
def collapseWs (ws : Char → Bool) (l : List Char) : List Char :=
  collapseAux ws false l

/-- The allow-list substitution `re.sub(r'[^...]', ' ', text)`: characters
outside the allow-list are replaced by a space. -/
def replaceDisallowed (allowed : Char → Bool) (l : List Char) : List Char :=
  l.map (fun c => if allowed c then c else ' ')

/-- Removal of the maximal trailing whitespace run (the right half of
`str.strip()`). -/
def trimBack (ws : Char → Bool) : List Char → List Char
  | [] => []
  | c :: cs =>
      match trimBack ws cs with
      | [] => if ws c then [] else [c]
      | t => c :: t

/-- `text.strip()`: drop leading and trailing whitespace. -/
def stripWs (ws : Char → Bool) (l : List Char) : List Char :=
  trimBack ws (l.dropWhile (fun c => ws c))

/-- `TextSanitizer._post_process_text`: collapse whitespace, substitute
disallowed characters by spaces, collapse again, strip. -/
def postProcess (ws allowed : Char → Bool) (l : List Char) : List Char :=
  stripWs ws (collapseWs ws (replaceDisallowed allowed (collapseWs ws l)))

/-- Adjacent characters are never both whitespace. -/
def noTwoWs (ws : Char → Bool) (a b : Char) : Prop :=
  ¬(ws a = true ∧ ws b = true)

/-! ## Lemmas about the association-list dict model -/

theorem lookup_insertAL {α : Type} (m : List (String × α)) (k : String)
    (v : α) (c : String) :
    lookupAL (insertAL m k v) c = if c = k then some v else lookupAL m c := by
  induction m with
  | nil => by_cases hc : c = k <;> simp [insertAL, lookupAL, hc]
  | cons p rest ih =>
    obtain ⟨k', v'⟩ := p
    simp only [insertAL]
    by_cases hk : k' = k
    · subst hk
      simp only [if_pos rfl]
      by_cases hc : c = k' <;> simp [lookupAL, hc]
    · rw [if_neg hk]
      by_cases hc : c = k'
      · subst hc
        simp [lookupAL, hk]
      · simp [lookupAL, hc, ih]

theorem lookup_insAll (N : ℕ) (ds : List Doc) :
    ∀ (i : ℕ) (m : List (String × ℚ)) (c : String),
      lookupAL (insAll N i ds m) c =
        (lastScore? N i ds c).elim (lookupAL m c) some := by
  induction ds with
  | nil => intro i m c; simp [insAll, lastScore?]
  | cons d ds ih =>
    intro i m c
    show lookupAL (insAll N (i + 1) ds (insertAL m d.page_content (pscore N i))) c = _
    rw [ih (i + 1) (insertAL m d.page_content (pscore N i)) c]
    rw [lookup_insertAL]
    show _ = (lastScore? N i (d :: ds) c).elim (lookupAL m c) some
    have hunf : lastScore? N i (d :: ds) c =
        match lastScore? N (i + 1) ds c with
        | some v => some v
        | none => if d.page_content = c then some (pscore N i) else none := rfl
    rw [hunf]
    cases lastScore? N (i + 1) ds c with
    | some v => simp
    | none =>
      by_cases h : d.page_content = c
      · simp [h, Option.elim]
      · have h' : ¬ c = d.page_content := fun hc => h hc.symm
        simp [h, h', Option.elim]

theorem lookupD_buildScoresMap (docs : List Doc) (c : String) :
    lookupD (buildScoresMap docs) c 0 = componentScore docs c := by
  show (lookupAL (insAll docs.length 0 docs []) c).getD 0 = componentScore docs c
  rw [lookup_insAll]
  unfold componentScore
  cases lastScore? docs.length 0 docs c with
  | some v => simp
  | none => simp [lookupAL]

theorem lastScore?_eq_none (N : ℕ) (ds : List Doc) :
    ∀ (i : ℕ) (c : String), (∀ d ∈ ds, d.page_content ≠ c) →
      lastScore? N i ds c = none := by
  induction ds with
  | nil => intro i c _; rfl
  | cons d ds ih =>
    intro i c h
    have htail : lastScore? N (i + 1) ds c = none :=
      ih (i + 1) c (fun d' hd' => h d' (List.mem_cons_of_mem d hd'))
    have hhead : d.page_content ≠ c := h d (List.mem_cons_self d ds)
    show (match lastScore? N (i + 1) ds c with
      | some v => some v
      | none => if d.page_content = c then some (pscore N i) else none) = none
    rw [htail]
    simp [hhead]

theorem lastScore?_last_occ (N : ℕ) (ds : List Doc) :
    ∀ (i j : ℕ) (hj : j < ds.length) (c : String),
      (ds.get ⟨j, hj⟩).page_content = c →
      (∀ (l : ℕ) (hl : l < ds.length), j < l →
        (ds.get ⟨l, hl⟩).page_content ≠ c) →
      lastScore? N i ds c = some (pscore N (i + j)) := by
  induction ds with
  | nil => intro i j hj; exact absurd hj (Nat.not_lt_zero j)
  | cons d ds ih =>
    intro i j hj c hc hlast
    cases j with
    | zero =>
      have hhead : d.page_content = c := hc
      have htail : lastScore? N (i + 1) ds c = none := by
        refine lastScore?_eq_none N ds (i + 1) c ?_
        intro d' hd'
        obtain ⟨⟨l, hl⟩, hget⟩ := List.mem_iff_get.mp hd'
        have h2 := hlast (l + 1) (by simpa using Nat.succ_lt_succ hl)
          (Nat.succ_pos l)
        rw [← hget]
        simpa using h2
      show (match lastScore? N (i + 1) ds c with
        | some v => some v
        | none => if d.page_content = c then some (pscore N i) else none) =
          some (pscore N (i + 0))
      rw [htail]
      simp [hhead]
    | succ j' =>
      have hj' : j' < ds.length := Nat.lt_of_succ_lt_succ hj
      have hc' : (ds.get ⟨j', hj'⟩).page_content = c := hc
      have hlast' : ∀ (l : ℕ) (hl : l < ds.length), j' < l →
          (ds.get ⟨l, hl⟩).page_content ≠ c := by
        intro l hl hjl
        have := hlast (l + 1) (Nat.succ_lt_succ hl) (Nat.succ_lt_succ hjl)
        simpa using this
      have htail := ih (i + 1) j' hj' c hc' hlast'
      show (match lastScore? N (i + 1) ds c with
        | some v => some v
        | none => if d.page_content = c then some (pscore N i) else none) =
          some (pscore N (i + (j' + 1)))
      rw [htail]
      have : i + 1 + j' = i + (j' + 1) := by omega
      rw [this]

theorem componentScore_of_not_mem (docs : List Doc) (c : String)
    (h : ∀ d ∈ docs, d.page_content ≠ c) : componentScore docs c = 0 := by
  unfold componentScore
  rw [lastScore?_eq_none docs.length docs 0 c h]

theorem componentScore_last_occ (docs : List Doc) (c : String) (j : ℕ)
    (hj : j < docs.length) (hc : (docs.get ⟨j, hj⟩).page_content = c)
    (hlast : ∀ (l : ℕ) (hl : l < docs.length), j < l →
      (docs.get ⟨l, hl⟩).page_content ≠ c) :
    componentScore docs c = pscore docs.length j := by
  unfold componentScore
  rw [lastScore?_last_occ docs.length docs 0 j hj c hc hlast]
  show pscore docs.length (0 + j) = pscore docs.length j
  rw [Nat.zero_add]

/-! ## Lemmas about the stable descending sort -/

theorem mem_insertDesc (x a : CandidateMatchResult) :
    ∀ (l : List CandidateMatchResult),
      a ∈ insertDesc x l ↔ a = x ∨ a ∈ l := by
  intro l
  induction l with
  | nil => simp [insertDesc]
  | cons y ys ih =>
    by_cases h : y.scores.hybrid_score < x.scores.hybrid_score
    · simp [insertDesc, h]
    · simp only [insertDesc, if_neg h, List.mem_cons, ih]
      tauto

theorem pairwise_insertDesc (x : CandidateMatchResult) :
    ∀ (l : List CandidateMatchResult), l.Pairwise scoreGe →
      (insertDesc x l).Pairwise scoreGe := by
  intro l
  induction l with
  | nil => intro _; simp [insertDesc, List.Pairwise]
  | cons y ys ih =>
    intro hp
    rw [List.pairwise_cons] at hp
    obtain ⟨hy, hys⟩ := hp
    by_cases h : y.scores.hybrid_score < x.scores.hybrid_score
    · simp only [insertDesc, if_pos h]
      rw [List.pairwise_cons]
      constructor
      · intro b hb
        rcases List.mem_cons.mp hb with hb | hb
        · exact hb ▸ le_of_lt h
        · exact le_trans (hy b hb) (le_of_lt h)
      · rw [List.pairwise_cons]
        exact ⟨hy, hys⟩
    · simp only [insertDesc, if_neg h]
      rw [List.pairwise_cons]
      constructor
      · intro b hb
        rcases (mem_insertDesc x b ys).mp hb with hb | hb
        · exact hb ▸ le_of_not_lt h
        · exact hy b hb
      · exact ih hys

theorem pairwise_sortDesc_aux (l : List CandidateMatchResult) :
    ∀ (acc : List CandidateMatchResult), acc.Pairwise scoreGe →
      (l.foldl (fun acc x => insertDesc x acc) acc).Pairwise scoreGe := by
  induction l with
  | nil => intro acc h; exact h
  | cons x xs ih =>
    intro acc h
    exact ih (insertDesc x acc) (pairwise_insertDesc x acc h)

theorem pairwise_sortDesc (l : List CandidateMatchResult) :
    (sortDesc l).Pairwise scoreGe :=
  pairwise_sortDesc_aux l [] (List.Pairwise.nil)

theorem mem_sortDesc_aux (l : List CandidateMatchResult) :
    ∀ (acc : List CandidateMatchResult) (a : CandidateMatchResult),
      a ∈ l.foldl (fun acc x => insertDesc x acc) acc →
      a ∈ acc ∨ a ∈ l := by
  induction l with
  | nil => intro acc a h; exact Or.inl h
  | cons x xs ih =>
    intro acc a h
    rcases ih (insertDesc x acc) a h with h' | h'
    · rcases (mem_insertDesc x a acc).mp h' with h'' | h''
      · exact Or.inr (h'' ▸ List.mem_cons_self x xs)
      · exact Or.inl h''
    · exact Or.inr (List.mem_cons_of_mem x h')

theorem mem_of_mem_sortDesc (l : List CandidateMatchResult)
    (a : CandidateMatchResult) (h : a ∈ sortDesc l) : a ∈ l := by
  rcases mem_sortDesc_aux l [] a h with h' | h'
  · exact absurd h' (List.not_mem_nil a)
  · exact h'

/-! ## Lemmas about candidate grouping -/

theorem getCandidateId_ne_empty (r : SearchResult) (cid : String)
    (h : getCandidateId r = some cid) : cid ≠ "" := by
  unfold getCandidateId at h
  cases hc : lookupAL r.metadata "candidate_id" with
  | none => rw [hc] at h; exact absurd h (by simp)
  | some s =>
    rw [hc] at h
    have h' : (if s = "" then none else some s) = some cid := h
    by_cases hs : s = ""
    · rw [if_pos hs] at h'; exact absurd h' (by simp)
    · rw [if_neg hs] at h'
      have hsc : s = cid := Option.some.inj h'
      exact hsc ▸ hs

theorem mem_addToGroups (cid cid' : String) (r : SearchResult) :
    ∀ (gs : List (String × List SearchResult))
      (g : List SearchResult),
      (cid, g) ∈ addToGroups gs cid' r →
      (∃ g', (cid, g') ∈ gs) ∨ cid = cid' := by
  intro gs
  induction gs with
  | nil =>
    intro g h
    simp only [addToGroups, List.mem_singleton] at h
    exact Or.inr (congrArg Prod.fst h)
  | cons p rest ih =>
    obtain ⟨c, rs⟩ := p
    intro g h
    have h0 : (cid, g) ∈
        (if c = cid' then (c, rs ++ [r]) :: rest
         else (c, rs) :: addToGroups rest cid' r) := h
    by_cases hc : c = cid'
    · rw [if_pos hc] at h0
      rcases List.mem_cons.mp h0 with h1 | h1
      · have hcid : cid = c := congrArg Prod.fst h1
        exact Or.inr (hcid.trans hc)
      · exact Or.inl ⟨g, List.mem_cons_of_mem _ h1⟩
    · rw [if_neg hc] at h0
      rcases List.mem_cons.mp h0 with h1 | h1
      · have hcid : cid = c := congrArg Prod.fst h1
        refine Or.inl ⟨rs, ?_⟩
        rw [hcid]
        exact List.mem_cons_self _ _
      · rcases ih g h1 with ⟨g', hg'⟩ | h'
        · exact Or.inl ⟨g', List.mem_cons_of_mem _ hg'⟩
        · exact Or.inr h'

theorem mem_groupByCandidate_aux (rs : List SearchResult) :
    ∀ (acc : List (String × List SearchResult)) (cid : String)
      (g : List SearchResult),
      (cid, g) ∈ rs.foldl
        (fun gs r =>
          match getCandidateId r with
          | some cid => addToGroups gs cid r
          | none => gs) acc →
      (∃ g', (cid, g') ∈ acc) ∨ ∃ r ∈ rs, getCandidateId r = some cid := by
  induction rs with
  | nil => intro acc cid g h; exact Or.inl ⟨g, h⟩
  | cons r rs ih =>
    intro acc cid g h
    rcases ih _ cid g h with hacc | ⟨r', hr', hcid⟩
    · obtain ⟨g', hg'⟩ := hacc
      have hg2 : (cid, g') ∈
          (match getCandidateId r with
           | some cid' => addToGroups acc cid' r
           | none => acc) := hg'
      cases hci : getCandidateId r with
      | none => rw [hci] at hg2; exact Or.inl ⟨g', hg2⟩
      | some cid' =>
        rw [hci] at hg2
        rcases mem_addToGroups cid cid' r acc g' hg2 with h' | h'
        · exact Or.inl h'
        · exact Or.inr ⟨r, List.mem_cons_self r rs, h' ▸ hci⟩
    · exact Or.inr ⟨r', List.mem_cons_of_mem r hr', hcid⟩

theorem mem_groupByCandidate (rs : List SearchResult) (cid : String)
    (g : List SearchResult) (h : (cid, g) ∈ groupByCandidate rs) :
    ∃ r ∈ rs, getCandidateId r = some cid := by
  rcases mem_groupByCandidate_aux rs [] cid g h with ⟨g', hg'⟩ | h'
  · exact absurd hg' (List.not_mem_nil _)
  · exact h'

/-! ## Lemmas about the sanitizer post-processing -/

theorem mem_collapseAux (ws : Char → Bool) :
    ∀ (l : List Char) (b : Bool) (c : Char),
      c ∈ collapseAux ws b l → c = ' ' ∨ c ∈ l := by
  intro l
  induction l with
  | nil => intro b c h; simp [collapseAux] at h
  | cons d ds ih =>
    intro b c h
    cases hd : ws d with
    | true =>
      cases b with
      | false =>
        rw [show collapseAux ws false (d :: ds) = ' ' :: collapseAux ws true ds
          from by simp [collapseAux, hd]] at h
        rcases List.mem_cons.mp h with h | h
        · exact Or.inl h
        · rcases ih true c h with h | h
          · exact Or.inl h
          · exact Or.inr (List.mem_cons_of_mem _ h)
      | true =>
        rw [show collapseAux ws true (d :: ds) = collapseAux ws true ds
          from by simp [collapseAux, hd]] at h
        rcases ih true c h with h | h
        · exact Or.inl h
        · exact Or.inr (List.mem_cons_of_mem _ h)
    | false =>
      rw [show collapseAux ws b (d :: ds) = d :: collapseAux ws false ds
        from by simp [collapseAux, hd]] at h
      rcases List.mem_cons.mp h with h | h
      · exact Or.inr (h ▸ List.mem_cons_self _ _)
      · rcases ih false c h with h | h
        · exact Or.inl h
        · exact Or.inr (List.mem_cons_of_mem _ h)

theorem ws_space_collapseAux (ws : Char → Bool) :
    ∀ (l : List Char) (b : Bool) (c : Char),
      c ∈ collapseAux ws b l → ws c = true → c = ' ' := by
  intro l
  induction l with
  | nil => intro b c h; simp [collapseAux] at h
  | cons d ds ih =>
    intro b c h hwc
    cases hd : ws d with
    | true =>
      cases b with
      | false =>
        rw [show collapseAux ws false (d :: ds) = ' ' :: collapseAux ws true ds
          from by simp [collapseAux, hd]] at h
        rcases List.mem_cons.mp h with h | h
        · exact h
        · exact ih true c h hwc
      | true =>
        rw [show collapseAux ws true (d :: ds) = collapseAux ws true ds
          from by simp [collapseAux, hd]] at h
        exact ih true c h hwc
    | false =>
      rw [show collapseAux ws b (d :: ds) = d :: collapseAux ws false ds
        from by simp [collapseAux, hd]] at h
      rcases List.mem_cons.mp h with h | h
      · rw [h] at hwc
        rw [hd] at hwc
        exact absurd hwc (by simp)
      · exact ih false c h hwc

theorem head_collapseAux_true (ws : Char → Bool) :
    ∀ (l : List Char) (c : Char),
      (collapseAux ws true l).head? = some c → ws c = false := by
  intro l
  induction l with
  | nil => intro c h; simp [collapseAux] at h
  | cons d ds ih =>
    intro c h
    cases hd : ws d with
    | true =>
      rw [show collapseAux ws true (d :: ds) = collapseAux ws true ds
        from by simp [collapseAux, hd]] at h
      exact ih c h
    | false =>
      rw [show collapseAux ws true (d :: ds) = d :: collapseAux ws false ds
        from by simp [collapseAux, hd]] at h
      have : d = c := by simpa using h
      rw [← this]
      exact hd

theorem chain_collapseAux (ws : Char → Bool) :
    ∀ (l : List Char) (b : Bool),
      List.Chain' (noTwoWs ws) (collapseAux ws b l) := by
  intro l
  induction l with
  | nil => intro b; simp [collapseAux]
  | cons d ds ih =>
    intro b
    cases hd : ws d with
    | true =>
      cases b with
      | false =>
        rw [show collapseAux ws false (d :: ds) = ' ' :: collapseAux ws true ds
          from by simp [collapseAux, hd]]
        rw [List.chain'_cons']
        refine ⟨?_, ih true⟩
        intro h hh
        intro hcontra
        have := head_collapseAux_true ws ds h hh
        rw [this] at hcontra
        exact absurd hcontra.2 (by simp)
      | true =>
        rw [show collapseAux ws true (d :: ds) = collapseAux ws true ds
          from by simp [collapseAux, hd]]
        exact ih true
    | false =>
      rw [show collapseAux ws b (d :: ds) = d :: collapseAux ws false ds
        from by simp [collapseAux, hd]]
      rw [List.chain'_cons']
      refine ⟨?_, ih false⟩
      intro h _
      intro hcontra
      rw [hd] at hcontra
      exact absurd hcontra.1 (by simp)

theorem collapseAux_fixpoint (ws : Char → Bool) (hwsp : ws ' ' = true) :
    ∀ (l : List Char), (∀ c ∈ l, ws c = true → c = ' ') →
      List.Chain' (noTwoWs ws) l → collapseAux ws false l = l := by
  intro l
  induction l with
  | nil => intro _ _; rfl
  | cons d ds ih =>
    intro hA hCh
    cases hd : ws d with
    | false =>
      rw [show collapseAux ws false (d :: ds) = d :: collapseAux ws false ds
        from by simp [collapseAux, hd]]
      rw [ih (fun c hc => hA c (List.mem_cons_of_mem d hc))
        (List.chain'_cons'.mp hCh).2]
    | true =>
      have hdsp : d = ' ' := hA d (List.mem_cons_self d ds) hd
      rw [show collapseAux ws false (d :: ds) = ' ' :: collapseAux ws true ds
        from by simp [collapseAux, hd]]
      rw [hdsp]
      have htail : collapseAux ws true ds = ds := by
        cases ds with
        | nil => rfl
        | cons e es =>
          have hR : noTwoWs ws d e := (List.chain'_cons.mp hCh).1
          have he : ws e = false := by
            cases he : ws e with
            | false => rfl
            | true => exact absurd ⟨hd, he⟩ hR
          have h1 : collapseAux ws true (e :: es) = e :: collapseAux ws false es := by
            simp [collapseAux, he]
          have h2 : collapseAux ws false (e :: es) = e :: collapseAux ws false es := by
            simp [collapseAux, he]
          rw [h1, ← h2]
          exact ih (fun c hc => hA c (List.mem_cons_of_mem d hc))
            (List.chain'_cons'.mp hCh).2
      rw [htail]

theorem replace_fixpoint (allowed : Char → Bool) :
    ∀ (l : List Char), (∀ c ∈ l, allowed c = true) →
      replaceDisallowed allowed l = l := by
  intro l
  induction l with
  | nil => intro _; rfl
  | cons d ds ih =>
    intro h
    have hd := h d (List.mem_cons_self d ds)
    show (if allowed d then d else ' ') :: replaceDisallowed allowed ds = d :: ds
    rw [if_pos hd, ih (fun c hc => h c (List.mem_cons_of_mem d hc))]

theorem mem_replaceDisallowed (allowed : Char → Bool) (l : List Char)
    (c : Char) (h : c ∈ replaceDisallowed allowed l) : c = ' ' ∨ c ∈ l := by
  obtain ⟨a, ha, hc⟩ := List.mem_map.mp h
  by_cases hall : allowed a
  · rw [if_pos hall] at hc
    exact Or.inr (hc ▸ ha)
  · rw [if_neg hall] at hc
    exact Or.inl hc.symm

theorem allowed_replaceDisallowed (allowed : Char → Bool)
    (hallow : allowed ' ' = true) (l : List Char) (c : Char)
    (h : c ∈ replaceDisallowed allowed l) : allowed c = true := by
  obtain ⟨a, _, hc⟩ := List.mem_map.mp h
  by_cases hall : allowed a
  · rw [if_pos hall] at hc
    rw [← hc]
    exact hall
  · rw [if_neg hall] at hc
    rw [← hc]
    exact hallow

theorem trimBack_prefixOf (ws : Char → Bool) :
    ∀ (l : List Char), trimBack ws l <+: l := by
  intro l
  induction l with
  | nil => exact List.nil_prefix
  | cons d ds ih =>
    cases h : trimBack ws ds with
    | nil =>
      cases hd : ws d with
      | true =>
        rw [show trimBack ws (d :: ds) = [] from by simp [trimBack, h, hd]]
        exact List.nil_prefix
      | false =>
        rw [show trimBack ws (d :: ds) = [d] from by simp [trimBack, h, hd]]
        exact ⟨ds, rfl⟩
    | cons t0 ts =>
      rw [show trimBack ws (d :: ds) = d :: t0 :: ts from by
        show (match trimBack ws ds with
          | [] => if ws d then [] else [d]
          | t => d :: t) = d :: t0 :: ts
        rw [h]]
      rw [h] at ih
      obtain ⟨u, hu⟩ := ih
      exact ⟨u, by rw [List.cons_append, hu]⟩

theorem mem_trimBack (ws : Char → Bool) (l : List Char) (c : Char)
    (h : c ∈ trimBack ws l) : c ∈ l :=
  (trimBack_prefixOf ws l).sublist.subset h

theorem getLast?_trimBack (ws : Char → Bool) :
    ∀ (l : List Char) (c : Char),
      (trimBack ws l).getLast? = some c → ws c = false := by
  intro l
  induction l with
  | nil => intro c h; simp [trimBack] at h
  | cons d ds ih =>
    intro c h
    cases htb : trimBack ws ds with
    | nil =>
      cases hd : ws d with
      | true =>
        rw [show trimBack ws (d :: ds) = [] from by simp [trimBack, htb, hd]] at h
        simp at h
      | false =>
        rw [show trimBack ws (d :: ds) = [d] from by simp [trimBack, htb, hd]] at h
        have : d = c := by simpa using h
        rw [← this]
        exact hd
    | cons t0 ts =>
      rw [show trimBack ws (d :: ds) = d :: t0 :: ts from by
        show (match trimBack ws ds with
          | [] => if ws d then [] else [d]
          | t => d :: t) = d :: t0 :: ts
        rw [htb]] at h
      rw [List.getLast?_cons_cons] at h
      rw [← htb] at h
      exact ih c h

theorem trimBack_fixpoint (ws : Char → Bool) :
    ∀ (l : List Char), (∀ c, l.getLast? = some c → ws c = false) →
      trimBack ws l = l := by
  intro l
  induction l with
  | nil => intro _; rfl
  | cons d ds ih =>
    intro h
    cases ds with
    | nil =>
      have hd : ws d = false := h d (by simp)
      simp [trimBack, hd]
    | cons e es =>
      have htail : trimBack ws (e :: es) = e :: es := by
        refine ih ?_
        intro c hc
        refine h c ?_
        rw [List.getLast?_cons_cons]
        exact hc
      show (match trimBack ws (e :: es) with
        | [] => if ws d then [] else [d]
        | t => d :: t) = d :: e :: es
      rw [htail]

theorem head?_trimBack (ws : Char → Bool) (l : List Char) (c : Char)
    (h : (trimBack ws l).head? = some c) : l.head? = some c := by
  obtain ⟨u, hu⟩ := trimBack_prefixOf ws l
  rw [← hu]
  cases htb : trimBack ws l with
  | nil =>
    rw [htb] at h
    simp at h
  | cons t0 ts =>
    rw [htb] at h
    have : t0 = c := by simpa using h
    rw [← this]
    rfl

theorem head?_dropWhile_false (p : Char → Bool) :
    ∀ (l : List Char) (c : Char),
      ((l.dropWhile p).head? = some c) → p c = false := by
  intro l
  induction l with
  | nil => intro c h; simp at h
  | cons d ds ih =>
    intro c h
    cases hd : p d with
    | true =>
      rw [List.dropWhile_cons, if_pos (by rw [hd])] at h
      exact ih c h
    | false =>
      rw [List.dropWhile_cons, if_neg (by rw [hd]; simp)] at h
      have : d = c := by simpa using h
      rw [← this]
      exact hd

theorem dropWhile_fixpoint (p : Char → Bool) (l : List Char)
    (h : ∀ c, l.head? = some c → p c = false) : l.dropWhile p = l := by
  cases l with
  | nil => rfl
  | cons d ds =>
    have hd : p d = false := h d rfl
    rw [List.dropWhile_cons, if_neg (by rw [hd]; simp)]

theorem mem_stripWs (ws : Char → Bool) (l : List Char) (c : Char)
    (h : c ∈ stripWs ws l) : c ∈ l := by
  have h1 : c ∈ l.dropWhile (fun c => ws c) := mem_trimBack ws _ c h
  exact (List.dropWhile_sublist _).subset h1

theorem chain_stripWs (ws : Char → Bool) (l : List Char)
    (h : List.Chain' (noTwoWs ws) l) :
    List.Chain' (noTwoWs ws) (stripWs ws l) := by
  have h1 : List.Chain' (noTwoWs ws) (l.dropWhile (fun c => ws c)) :=
    h.suffix (List.dropWhile_suffix _)
  exact h1.prefix (trimBack_prefixOf ws _)

theorem head?_stripWs (ws : Char → Bool) (l : List Char) (c : Char)
    (h : (stripWs ws l).head? = some c) : ws c = false :=
  head?_dropWhile_false (fun c => ws c) l c (head?_trimBack ws _ c h)

theorem getLast?_stripWs (ws : Char → Bool) (l : List Char) (c : Char)
    (h : (stripWs ws l).getLast? = some c) : ws c = false :=
  getLast?_trimBack ws _ c h

theorem stripWs_fixpoint (ws : Char → Bool) (l : List Char)
    (hh : ∀ c, l.head? = some c → ws c = false)
    (hl : ∀ c, l.getLast? = some c → ws c = false) : stripWs ws l = l := by
  unfold stripWs
  rw [dropWhile_fixpoint _ l hh]
  exact trimBack_fixpoint ws l hl

/-- Idempotence of the sanitizer's post-processing: running
`_post_process_text` on its own output changes nothing, provided the space
character is whitespace and allowed (true for the source's regexes). -/
theorem postProcess_idem (ws allowed : Char → Bool) (hwsp : ws ' ' = true)
    (hallow : allowed ' ' = true) (l : List Char) :
    postProcess ws allowed (postProcess ws allowed l) =
      postProcess ws allowed l := by
  have key : ∀ (x : List Char), (∀ c ∈ x, ws c = true → c = ' ') →
      List.Chain' (noTwoWs ws) x → (∀ c ∈ x, allowed c = true) →
      (∀ c, x.head? = some c → ws c = false) →
      (∀ c, x.getLast? = some c → ws c = false) →
      postProcess ws allowed x = x := by
    intro x hA hCh hAl hH hL
    unfold postProcess
    rw [show collapseWs ws x = x from collapseAux_fixpoint ws hwsp x hA hCh]
    rw [replace_fixpoint allowed x hAl]
    rw [show collapseWs ws x = x from collapseAux_fixpoint ws hwsp x hA hCh]
    exact stripWs_fixpoint ws x hH hL
  refine key (postProcess ws allowed l) ?_ ?_ ?_ ?_ ?_
  · intro c hc hwc
    have hc1 := mem_stripWs ws _ c hc
    exact ws_space_collapseAux ws _ false c hc1 hwc
  · exact chain_stripWs ws _ (chain_collapseAux ws _ false)
  · intro c hc
    have hc1 := mem_stripWs ws _ c hc
    rcases mem_collapseAux ws _ false c hc1 with h | h
    · rw [h]; exact hallow
    · exact allowed_replaceDisallowed allowed hallow _ c h
  · exact head?_stripWs ws _
  · exact getLast?_stripWs ws _

/-! ## Claim theorems -/

/-- Claim C1 (code bug witness): the spec and the rest of the code expect
`CandidateMatchResult` to carry a `report` field of type
`CandidateAnalysisReport`, but `models/hybrid_search.py` declares no such
class and no such field, while `hybrid_search_service.py` imports the
missing name (so importing the service module fails). -/
theorem C1_report_field_missing :
    "CandidateAnalysisReport" ∈ service_imported_model_names ∧
    "CandidateAnalysisReport" ∉ models_hybrid_search_classes ∧
    "report" ∉ candidateMatchResult_fields := by
  decide

/-- Claim C2, counterexample: with a corpus of 12 chunks and requested
`k = 2`, the per-component pools over which position scores are computed
have length 2, not the fixed 10 the claim asserts — the code passes the
requested `k` to both retrievers. -/
def docs12 : List Doc :=
  (List.range 12).map (fun n => { page_content := toString n, metadata := [] })

/-- A matcher state whose every ranking returns the 12-chunk corpus. -/
def exSt12 : MatcherState :=
  { vector_weight := 7 / 10
    vectorRank := fun _ => docs12
    bm25Rank := fun _ => docs12
    ensembleRank := fun _ => docs12 }

/-- Claim C2 fails on the code: at requested `k = 2` over a 12-chunk
corpus, both component pools have size 2, not 10. -/
theorem C2_counterexample :
    (exSt12.vectorRank "job query").length = 12 ∧
    (exSt12.bm25Rank "job query").length = 12 ∧
    (vectorPool exSt12 "job query" 2).length = 2 ∧
    (bm25Pool exSt12 "job query" 2).length = 2 ∧
    (vectorPool exSt12 "job query" 2).length ≠ 10 ∧
    (bm25Pool exSt12 "job query" 2).length ≠ 10 := by
  refine ⟨?_, ?_, ?_, ?_, by decide, by decide⟩ <;> rfl

/-- Claim C2 amended: each per-component pool in the hybrid branch is the
top-`k` list for the requested `k` — its size is `min k` (available
ranking length), not a fixed 10. -/
theorem C2_amended (st : MatcherState) (q : String) (k : ℕ) :
    (vectorPool st q k).length = min k (st.vectorRank q).length ∧
    (bm25Pool st q k).length = min k (st.bm25Rank q).length ∧
    (ensemblePool st q k).length = min k (st.ensembleRank q).length :=
  ⟨List.length_take _ _, List.length_take _ _, List.length_take _ _⟩

/-- Claim C6: on a failed judge call or unparsable judge output, the
analysis report operation returns the fixed neutral report and the
scoring operation returns 0.5 axis scores with "default score" reasoning
strings; both functions are total, so no exception reaches the caller. -/
theorem C6_neutral_fallbacks :
    generate_analysis_report ModelOutcome.callFailure =
      { fit_category := "Fair", overall_score := 50, missing_skills := [],
        explanation := "AI analysis failed. Unable to generate detailed report.",
        strengths := [], weaknesses := [] } ∧
    generate_analysis_report ModelOutcome.parseFailure =
      { fit_category := "Fair", overall_score := 50, missing_skills := [],
        explanation := "AI analysis failed. Unable to generate detailed report.",
        strengths := [], weaknesses := [] } ∧
    evaluate_resume ModelOutcome.callFailure =
      { technical_skills := 1 / 2, experience := 1 / 2, overall_match := 1 / 2,
        reasoning_technical_skills := "AI evaluation failed. Using default score.",
        reasoning_experience := "AI evaluation failed. Using default score.",
        reasoning_overall_match := "AI evaluation failed. Using default score." } ∧
    evaluate_resume ModelOutcome.parseFailure =
      { technical_skills := 1 / 2, experience := 1 / 2, overall_match := 1 / 2,
        reasoning_technical_skills := "AI evaluation failed. Using default score.",
        reasoning_experience := "AI evaluation failed. Using default score.",
        reasoning_overall_match := "AI evaluation failed. Using default score." } :=
  ⟨rfl, rfl, rfl, rfl⟩

/-- The never-indexed process state: nothing was ever indexed or loaded. -/
def neverIndexed : World := { persisted := none }

/-- Claim C9, counterexample: on the same never-indexed state the two
entry points disagree — the module-level `find_matches` answers with the
empty list while the service/matcher path raises `NotIndexed`, so the
outcome is not consistent across entry points. -/
theorem C9_counterexample :
    module_find_matches neverIndexed id "python developer" 5 = Except.ok [] ∧
    service_direct_find_matches neverIndexed id "python developer" 5 =
      Except.error SearchError.notIndexed ∧
    module_find_matches neverIndexed id "python developer" 5 ≠
      service_direct_find_matches neverIndexed id "python developer" 5 := by
  refine ⟨rfl, rfl, ?_⟩
  intro h
  simp [module_find_matches, service_direct_find_matches, neverIndexed] at h

/-- Claim C9 amended: before any indexing or loading, each entry point is
individually deterministic, but the outcome depends on the entry point:
the module-level `find_matches` returns the empty list, while
`HybridSearchService.find_matches` (through `HybridMatcher.find_matches`)
fails with `NotIndexed`. -/
theorem C9_amended (q : String) (k : ℕ) :
    module_find_matches neverIndexed id q k = Except.ok [] ∧
    service_direct_find_matches neverIndexed id q k =
      Except.error SearchError.notIndexed :=
  ⟨rfl, rfl⟩

/-- Claim C3: every fused hybrid result stores
`hybrid_score = round3 (alpha * vector_position_score +
(1 - alpha) * bm25_position_score)` where each component score is the
position score of the chunk content's last occurrence in that component's
retrieved pool, and `componentScore` falls back to `0.0` when the content
is absent from the pool. -/
theorem C3_hybrid_score_recomputed (st : MatcherState) (q : String) (k : ℕ)
    (r : SearchResult) (hr : r ∈ find_matches_hybrid st q k) :
    (r.hybrid_scores = some
      { vector_score := round3 (componentScore (vectorPool st q k) r.content)
        bm25_score := round3 (componentScore (bm25Pool st q k) r.content)
        hybrid_score := round3
          (st.vector_weight * componentScore (vectorPool st q k) r.content +
            (1 - st.vector_weight) *
              componentScore (bm25Pool st q k) r.content) }) ∧
    (∀ (docs : List Doc) (c : String),
      (∀ d ∈ docs, d.page_content ≠ c) → componentScore docs c = 0) := by
  constructor
  · simp only [find_matches_hybrid] at hr
    obtain ⟨d, hd, hmk⟩ := List.mem_map.mp hr
    subst hmk
    simp only [mkSearchResult]
    rw [lookupD_buildScoresMap, lookupD_buildScoresMap]
  · exact fun docs c h => componentScore_of_not_mem docs c h

/-- First witness document: a chunk attributed to candidate `c1`. -/
def wDocA : Doc :=
  { page_content := "python aws engineer", metadata := [("candidate_id", "c1")] }

/-- Second witness document: a chunk attributed to candidate `c2`. -/
def wDocB : Doc :=
  { page_content := "java developer", metadata := [("candidate_id", "c2")] }

/-- A concrete indexed matcher over the two witness chunks, with the
default 0.7 vector weight. -/
def wSt : MatcherState :=
  { vector_weight := 7 / 10
    vectorRank := fun _ => [wDocA, wDocB]
    bm25Rank := fun _ => [wDocB, wDocA]
    ensembleRank := fun _ => [wDocA, wDocB] }

/-- The first hybrid result of the witness matcher at `k = 2`. -/
def wRes : SearchResult :=
  mkSearchResult (7 / 10) (buildScoresMap (vectorPool wSt "q" 2))
    (buildScoresMap (bm25Pool wSt "q" 2)) wDocA

/-- Witness for C3 at the concrete matcher state `wSt`, query `"q"`,
`k = 2` and its first result. -/
theorem C3_witness :
    wRes.hybrid_scores = some
      { vector_score := round3 (componentScore (vectorPool wSt "q" 2) wRes.content)
        bm25_score := round3 (componentScore (bm25Pool wSt "q" 2) wRes.content)
        hybrid_score := round3
          (wSt.vector_weight * componentScore (vectorPool wSt "q" 2) wRes.content +
            (1 - wSt.vector_weight) *
              componentScore (bm25Pool wSt "q" 2) wRes.content) } ∧
    componentScore [wDocB] "absent content" = 0 := by
  have hfm : find_matches_hybrid wSt "q" 2 =
      [wRes, mkSearchResult (7 / 10) (buildScoresMap (vectorPool wSt "q" 2))
        (buildScoresMap (bm25Pool wSt "q" 2)) wDocB] := rfl
  have hmem : wRes ∈ find_matches_hybrid wSt "q" 2 := by
    rw [hfm]
    exact List.mem_cons_self _ _
  refine ⟨(C3_hybrid_score_recomputed wSt "q" 2 wRes hmem).1,
    (C3_hybrid_score_recomputed wSt "q" 2 wRes hmem).2 [wDocB]
      "absent content" ?_⟩
  intro d hd
  rw [List.mem_singleton.mp hd]
  decide

/-- Claim C4: within a non-empty retrieved list of length `N`, the rank-`i`
item's position score is `1 - i/N`, the first result scores exactly `1`
and the last exactly `1/N`; when contents are pairwise distinct, the score
map built by the matcher assigns exactly that value to the rank-`i`
content. -/
theorem C4_position_scores (docs : List Doc) (hne : docs ≠ []) (i : ℕ)
    (hi : i < docs.length) :
    pscore docs.length i = 1 - (i : ℚ) / (docs.length : ℚ) ∧
    pscore docs.length 0 = 1 ∧
    (1 < docs.length →
      pscore docs.length (docs.length - 1) = 1 / (docs.length : ℚ)) ∧
    ((docs.map (fun d => d.page_content)).Nodup →
      lookupD (buildScoresMap docs) ((docs.get ⟨i, hi⟩).page_content) 0 =
        1 - (i : ℚ) / (docs.length : ℚ)) := by
  have hpos : 0 < docs.length := List.length_pos.mpr hne
  have hmax : max docs.length 1 = docs.length := Nat.max_eq_left hpos
  have hne0 : docs.length ≠ 0 := by omega
  have hcast : (docs.length : ℚ) ≠ 0 := Nat.cast_ne_zero.mpr hne0
  have hform : ∀ (m : ℕ), pscore docs.length m = 1 - (m : ℚ) / (docs.length : ℚ) := by
    intro m
    unfold pscore
    rw [hmax]
  refine ⟨hform i, ?_, ?_, ?_⟩
  · rw [hform 0]
    simp
  · intro h2
    rw [hform (docs.length - 1)]
    have hsub : ((docs.length - 1 : ℕ) : ℚ) = (docs.length : ℚ) - 1 := by
      rw [Nat.cast_sub (by omega : 1 ≤ docs.length), Nat.cast_one]
    rw [hsub]
    field_simp
  · intro hnd
    have hc : (docs.get ⟨i, hi⟩).page_content = (docs.get ⟨i, hi⟩).page_content := rfl
    have hlast : ∀ (l : ℕ) (hl : l < docs.length), i < l →
        (docs.get ⟨l, hl⟩).page_content ≠ (docs.get ⟨i, hi⟩).page_content := by
      intro l hl hil heq
      have hmapl : (docs.map (fun d => d.page_content)).get
          ⟨l, by simpa using hl⟩ = (docs.get ⟨l, hl⟩).page_content := by
        simp
      have hmapi : (docs.map (fun d => d.page_content)).get
          ⟨i, by simpa using hi⟩ = (docs.get ⟨i, hi⟩).page_content := by
        simp
      have hgeteq : (docs.map (fun d => d.page_content)).get
          ⟨l, by simpa using hl⟩ =
          (docs.map (fun d => d.page_content)).get ⟨i, by simpa using hi⟩ := by
        rw [hmapl, hmapi, heq]
      have hfin := (List.Nodup.get_inj_iff hnd).mp hgeteq
      have : l = i := congrArg Fin.val hfin
      omega
    rw [lookupD_buildScoresMap,
      componentScore_last_occ docs ((docs.get ⟨i, hi⟩).page_content) i hi hc hlast,
      hform i]

/-- A third witness document with distinct content. -/
def wDocC : Doc :=
  { page_content := "golang sre", metadata := [("candidate_id", "c3")] }

/-- A three-chunk retrieved list with pairwise distinct contents. -/
def wDocs3 : List Doc := [wDocA, wDocB, wDocC]

/-- Witness for C4 on the concrete three-chunk list at rank `i = 1`. -/
theorem C4_witness :
    pscore wDocs3.length 1 = 1 - (1 : ℚ) / (wDocs3.length : ℚ) ∧
    pscore wDocs3.length 0 = 1 ∧
    pscore wDocs3.length (wDocs3.length - 1) = 1 / (wDocs3.length : ℚ) ∧
    lookupD (buildScoresMap wDocs3) ((wDocs3.get ⟨1, by decide⟩).page_content) 0 =
      1 - (1 : ℚ) / (wDocs3.length : ℚ) := by
  obtain ⟨h1, h2, h3, h4⟩ := C4_position_scores wDocs3 (by decide) 1 (by decide)
  exact ⟨h1, h2, h3 (by decide), h4 (by decide)⟩

/-- Claim C8: deleting a candidate with no matching indexed chunk answers
not-found and leaves the whole index state — persisted collection and both
in-memory retrievers — exactly as it was. -/
theorem C8_delete_not_found (st : IndexState) (cid : String)
    (h : ∀ c ∈ st.collection, chunkMatches c cid = false) :
    delete_resume st cid = (Except.error DeleteError.notFound, st) := by
  unfold delete_resume
  by_cases hemp : st.collection.isEmpty
  · rw [if_pos hemp]
  · rw [if_neg hemp]
    have hfilter : st.collection.filter (fun c => chunkMatches c cid) = [] := by
      rw [List.filter_eq_nil_iff]
      intro c hc
      simp [h c hc]
    simp [hfilter]

/-- A stored chunk belonging to candidate `c1`. -/
def wChunk : StoredChunk :=
  { id := "id0", text := "python aws engineer",
    metadata := [("candidate_id", "c1")] }

/-- A loaded one-chunk index state. -/
def wIndex : IndexState :=
  { collection := [wChunk], bm25_docs := some [wChunk], ensemble_present := true }

/-- Witness for C8: deleting the unknown candidate `c2` from the loaded
one-chunk index answers not-found and returns the state unchanged. -/
theorem C8_witness :
    delete_resume wIndex "c2" = (Except.error DeleteError.notFound, wIndex) :=
  C8_delete_not_found wIndex "c2" (by decide)

/-- Claim C10: position scores are keyed by chunk text content, so
(a) two fused results with identical content always carry identical
hybrid score records, and (b) when a content occurs at several ranks of a
component list, the map stores the position score of its last
occurrence. -/
theorem C10_content_keyed_scores :
    (∀ (st : MatcherState) (q : String) (k : ℕ) (r1 r2 : SearchResult),
      r1 ∈ find_matches_hybrid st q k → r2 ∈ find_matches_hybrid st q k →
      r1.content = r2.content → r1.hybrid_scores = r2.hybrid_scores) ∧
    (∀ (docs : List Doc) (c : String) (j : ℕ) (hj : j < docs.length),
      (docs.get ⟨j, hj⟩).page_content = c →
      (∀ (l : ℕ) (hl : l < docs.length), j < l →
        (docs.get ⟨l, hl⟩).page_content ≠ c) →
      lookupD (buildScoresMap docs) c 0 = pscore docs.length j) := by
  constructor
  · intro st q k r1 r2 h1 h2 hc
    simp only [find_matches_hybrid] at h1 h2
    obtain ⟨d1, hd1, hm1⟩ := List.mem_map.mp h1
    obtain ⟨d2, hd2, hm2⟩ := List.mem_map.mp h2
    subst hm1
    subst hm2
    have hcc : d1.page_content = d2.page_content := hc
    simp only [mkSearchResult]
    rw [hcc]
  · intro docs c j hj hc hlast
    rw [lookupD_buildScoresMap]
    exact componentScore_last_occ docs c j hj hc hlast

/-- First duplicate-content chunk, attributed to `c1`. -/
def dX1 : Doc := { page_content := "x", metadata := [("candidate_id", "c1")] }

/-- Second chunk with the same content, attributed to `c2`. -/
def dX2 : Doc := { page_content := "x", metadata := [("candidate_id", "c2")] }

/-- A matcher whose fused list holds two distinct chunks of equal
content. -/
def dupSt : MatcherState :=
  { vector_weight := 7 / 10
    vectorRank := fun _ => [dX1]
    bm25Rank := fun _ => [dX2]
    ensembleRank := fun _ => [dX1, dX2] }

/-- The two fused results of `dupSt` (distinct metadata, equal content). -/
def dupR1 : SearchResult :=
  mkSearchResult (7 / 10) (buildScoresMap (vectorPool dupSt "q" 2))
    (buildScoresMap (bm25Pool dupSt "q" 2)) dX1

/-- Companion result built from the second duplicate chunk. -/
def dupR2 : SearchResult :=
  mkSearchResult (7 / 10) (buildScoresMap (vectorPool dupSt "q" 2))
    (buildScoresMap (bm25Pool dupSt "q" 2)) dX2

/-- A component list in which content `"x"` occurs at ranks 0 and 2. -/
def dupDocs : List Doc :=
  [{ page_content := "x", metadata := [] },
   { page_content := "y", metadata := [] },
   { page_content := "x", metadata := [] }]

/-- Witness for C10: the two equal-content fused results of `dupSt` carry
the same hybrid scores, and the score map over `dupDocs` stores the
position score of the last occurrence of `"x"` (rank 2). -/
theorem C10_witness :
    dupR1.hybrid_scores = dupR2.hybrid_scores ∧
    lookupD (buildScoresMap dupDocs) "x" 0 = pscore dupDocs.length 2 := by
  have hfm : find_matches_hybrid dupSt "q" 2 = [dupR1, dupR2] := rfl
  have hm1 : dupR1 ∈ find_matches_hybrid dupSt "q" 2 := by
    rw [hfm]
    exact List.mem_cons_self _ _
  have hm2 : dupR2 ∈ find_matches_hybrid dupSt "q" 2 := by
    rw [hfm]
    exact List.mem_cons_of_mem _ (List.mem_cons_self _ _)
  refine ⟨C10_content_keyed_scores.1 dupSt "q" 2 dupR1 dupR2 hm1 hm2 rfl,
    C10_content_keyed_scores.2 dupDocs "x" 2 (by decide) (by decide) ?_⟩
  decide

/-- Claim C5: for every job description and every `k`, the service returns
at most `k` candidate results, sorted in descending order of hybrid score,
and every returned result carries a candidate id obtained from the
`candidate_id` metadata of some retrieved chunk (chunks without one never
yield a result). -/
theorem C5_find_candidates (st : MatcherState) (sanitize : String → String)
    (q : String) (k : ℕ) :
    (service_find_matches st sanitize q k).length ≤ k ∧
    (service_find_matches st sanitize q k).Pairwise scoreGe ∧
    (∀ r ∈ service_find_matches st sanitize q k,
      r.candidate_id ≠ "" ∧
      ∃ c ∈ find_matches_hybrid st (sanitize q) (k * 3),
        getCandidateId c = some r.candidate_id) := by
  refine ⟨?_, ?_, ?_⟩
  · simp only [service_find_matches]
    exact List.length_take_le _ _
  · simp only [service_find_matches]
    exact (pairwise_sortDesc _).sublist (List.take_sublist _ _)
  · intro r hr
    simp only [service_find_matches] at hr
    have hr1 : r ∈ sortDesc ((groupByCandidate
        (find_matches_hybrid st (sanitize q) (k * 3))).map
          (fun g => aggregateGroup g.1 g.2)) :=
      List.take_subset _ _ hr
    have hr2 := mem_of_mem_sortDesc _ _ hr1
    obtain ⟨⟨cid, g⟩, hg, hagg⟩ := List.mem_map.mp hr2
    obtain ⟨c, hc, hcid⟩ := mem_groupByCandidate _ cid g hg
    have hrcid : r.candidate_id = cid := by
      rw [← hagg]
      rfl
    constructor
    · rw [hrcid]
      exact getCandidateId_ne_empty c cid hcid
    · refine ⟨c, hc, ?_⟩
      rw [hrcid]
      exact hcid

/-- A one-chunk matcher state for the service-level witness. -/
def wSt1 : MatcherState :=
  { vector_weight := 7 / 10
    vectorRank := fun _ => [wDocA]
    bm25Rank := fun _ => [wDocA]
    ensembleRank := fun _ => [wDocA] }

/-- The candidate result the witness service run returns. -/
def wCand : CandidateMatchResult :=
  aggregateGroup "c1"
    [mkSearchResult (7 / 10) (buildScoresMap (vectorPool wSt1 "query" 3))
      (buildScoresMap (bm25Pool wSt1 "query" 3)) wDocA]

/-- Witness for C5 on the concrete one-chunk matcher `wSt1` with identity
sanitization, query `"query"` and `k = 1`: the run returns at most one
result, sorted, and its only result `wCand` is attributed to a retrieved
chunk carrying `candidate_id = "c1"`. -/
theorem C5_witness :
    (service_find_matches wSt1 id "query" 1).length ≤ 1 ∧
    (service_find_matches wSt1 id "query" 1).Pairwise scoreGe ∧
    (wCand.candidate_id ≠ "" ∧
      ∃ c ∈ find_matches_hybrid wSt1 (id "query") (1 * 3),
        getCandidateId c = some wCand.candidate_id) := by
  obtain ⟨h1, h2, h3⟩ := C5_find_candidates wSt1 id "query" 1
  refine ⟨h1, h2, h3 wCand ?_⟩
  have hout : service_find_matches wSt1 id "query" 1 = [wCand] := rfl
  rw [hout]
  exact List.mem_cons_self _ _

end HRAgentic
